import Mathlib

/-!
Verification development for the sqm-calc square-matrix library.

The C++ source (src/squarematrix.{hpp,cpp}, src/element.{hpp,cpp},
src/valuation.hpp) is shallowly embedded below.  Machine `int` values are
modelled as `Int` (the parser enforces the 32-bit range exactly where the
C++ stream extraction sets `failbit` on overflow); `std::shared_ptr`
indirection is dropped because every operation clones cells on copy, so cell
storage behaves as plain values; a C++ function that throws is modelled as a
function into `Option` with `none` for the thrown exception (each modelled
operation has a single exception type, noted at its definition).
-/

/-- C-locale `isdigit` (used by stream number extraction). -/
def isDigitC (c : Char) : Bool := 48 ≤ c.toNat && c.toNat ≤ 57

/-- C-locale `isalpha` (used by the symbolic parser's variable check). -/
def isAlphaC (c : Char) : Bool :=
  (65 ≤ c.toNat && c.toNat ≤ 90) || (97 ≤ c.toNat && c.toNat ≤ 122)

/-- C-locale `isspace`: space, \t, \n, \v, \f, \r (what `std::skipws` skips). -/
def wsp (c : Char) : Bool := c.toNat = 32 || (9 ≤ c.toNat && c.toNat ≤ 13)

/-- Numeric value of a digit character. -/
def digitVal (c : Char) : Nat := c.toNat - 48

/-- The character of a decimal digit, as produced by `std::to_string`. -/
def digitChar (d : Nat) : Char := Char.ofNat (48 + d)

/-- Skip leading whitespace, as the `std::skipws` manipulator does. -/
def skipWs (s : List Char) : List Char := s.dropWhile wsp

/-- `ss >> std::skipws >> c` on a stream holding `s`: skip whitespace, then
extract one character; `none` models the read failing (stream exhausted). -/
def readChar (s : List Char) : Option (Char × List Char) :=
  match skipWs s with
  | [] => none
  | c :: rest => some (c, rest)

/-- Accumulate decimal digits, as `num_get` stage 2 does, returning the value
read so far and the first non-digit suffix. -/
def readDigits (acc : Nat) : List Char → Nat × List Char
  | [] => (acc, [])
  | c :: rest =>
    if isDigitC c then readDigits (10 * acc + digitVal c) rest
    else (acc, c :: rest)

/-- Read an unsigned digit string (at least one digit required). -/
def readNat (s : List Char) : Option (Nat × List Char) :=
  match s with
  | [] => none
  | c :: _ => if isDigitC c then some (readDigits 0 s) else none

/-- `ss >> std::skipws >> a` for `int a`: skip whitespace, optional sign, one
or more digits; out-of-range values set `failbit` (C++11 `num_get`).  On
failure the unconsumed suffix is returned in `Sum.inl` (stage 2 of `num_get`
consumes the characters it accumulated, e.g. a lone sign, before failing). -/
def readIntE (s : List Char) : Sum (List Char) (Int × List Char) :=
  match skipWs s with
  | [] => Sum.inl []
  | c :: rest =>
    if c = '-' then
      match readNat rest with
      | some (v, r) => if (v : Int) ≤ 2 ^ 31 then Sum.inr (-(v : Int), r) else Sum.inl r
      | none => Sum.inl rest
    else if c = '+' then
      match readNat rest with
      | some (v, r) => if (v : Int) < 2 ^ 31 then Sum.inr ((v : Int), r) else Sum.inl r
      | none => Sum.inl rest
    else
      match readNat (c :: rest) with
      | some (v, r) => if (v : Int) < 2 ^ 31 then Sum.inr ((v : Int), r) else Sum.inl r
      | none => Sum.inl (c :: rest)

/-- Decimal digit string of a natural number (structural recursion on a fuel
bound so the kernel can evaluate it). -/
def natCharsAux : Nat → Nat → List Char
  | 0, _ => []
  | fuel + 1, n =>
    if n < 10 then [digitChar n]
    else natCharsAux fuel (n / 10) ++ [digitChar (n % 10)]

/-- Decimal digit string of a natural number, as `std::to_string` renders it. -/
def natChars (n : Nat) : List Char := natCharsAux (n + 1) n

/-- `std::to_string` for `int` (`IntElement::toString`). -/
def intChars (v : Int) : List Char :=
  if v < 0 then '-' :: natChars v.natAbs else natChars v.toNat

/-- A matrix cell (`Element` hierarchy in element.hpp): either an
`IntElement` holding an `int` or a `VariableElement` holding a `char`. -/
inductive Element where
  | int (v : Int)
  | var (name : Char)
deriving DecidableEq, Repr

instance : Inhabited Element := ⟨Element.int 0⟩

/-- `Valuation` (valuation.hpp) is `std::map<char, int>` (the name `Valuation` is taken by Mathlib); evaluation only
calls `find`, which this lookup function models. -/
abbrev Valu := Char → Option Int

/-- `TElement<T>::evaluate` (element.cpp): an `IntElement` evaluates to its
value; a `VariableElement` looks its name up, throwing `std::domain_error`
(the spec's `UndefinedVariableError`, modelled by `none`) when absent. -/
def evalCell (val : Valu) : Element → Option Int
  | Element.int v => some v
  | Element.var c => val c

/-- `VariableElement::toString` renders the one-character name;
`IntElement::toString` is `std::to_string` (see `intChars`). -/
def elemChars : Element → List Char
  | Element.int v => intChars v
  | Element.var c => [c]

/-- `ElementarySquareMatrix<T>` (squarematrix.hpp): the declared size `n`
and the row-major grid of cells. -/
structure SqMat (α : Type) where
  n : Nat
  elements : List (List α)
deriving DecidableEq, Repr

/-- The class invariant the checking constructor enforces: `n` rows, each of
exactly `n` cells. -/
abbrev SqMat.wf {α : Type} (m : SqMat α) : Prop :=
  m.elements.length = m.n ∧ ∀ r ∈ m.elements, r.length = m.n

/-- Cell at row `i`, column `j` (out-of-range reads default; all theorems
stay within bounds of well-formed matrices). -/
def SqMat.entry {α : Type} [Inhabited α] (m : SqMat α) (i j : Nat) : α :=
  (m.elements.getD i []).getD j default

/-- The checking constructor `ElementarySquareMatrix(unsigned int, vector)`
(squarematrix.hpp:105-121): `std::invalid_argument` (the spec's
`ShapeError`, modelled by `none`) when the grid is not `new_n` rows of
`new_n` cells. -/
def mkMat {α : Type} (n : Nat) (elements : List (List α)) : Option (SqMat α) :=
  if n ≠ elements.length then none
  else if ∀ r ∈ elements, r.length = n then some ⟨n, elements⟩
  else none

/-- `ElementarySquareMatrix<T>::transpose` (squarematrix.hpp:210-228): `n`
fresh rows; source row `i`, cell `j` is pushed onto output row `j`. -/
def SqMat.transpose {α : Type} [Inhabited α] (m : SqMat α) : SqMat α :=
  ⟨m.n, (List.range m.n).map fun j => m.elements.map fun row => row.getD j default⟩

/-- The `firstel` comma-joining loop of `toString` (squarematrix.hpp:262). -/
def joinComma : List (List Char) → List Char
  | [] => []
  | [x] => x
  | x :: xs => x ++ ',' :: joinComma xs

/-- One row of `toString` output: `[c1,c2,...]`. -/
def rowChars {α : Type} (rc : α → List Char) (row : List α) : List Char :=
  '[' :: joinComma (row.map rc) ++ [']']

/-- `ElementarySquareMatrix<T>::toString` (squarematrix.hpp:262-284) as a
character list: `[` + one `[...]` group per row + `]`. -/
def matChars {α : Type} (rc : α → List Char) (m : SqMat α) : List Char :=
  '[' :: (m.elements.map (rowChars rc)).flatten ++ [']']

/-- `ConcreteSquareMatrix::toString`. -/
def toStringC (m : SqMat Int) : String := ⟨matChars intChars m⟩

/-- `SymbolicSquareMatrix::toString`. -/
def toStringS (m : SqMat Element) : String := ⟨matChars elemChars m⟩

/-- `ElementarySquareMatrix<T>::block(start, step)`
(squarematrix.hpp:372-408): checks `start`/`step` against `n*n`, returns `[]`
for `step = 0`, else copies `unrolled.at(i)` for `i ∈ [start, start+step)`;
`at` throws for `i ≥` flattened length.  Every throw here is
`std::out_of_range` (the spec's `OutOfRangeError`), modelled by `none`. -/
def SqMat.block {α : Type} (m : SqMat α) (start step : Nat) : Option (List α) :=
  let msize := m.n ^ 2
  if start > msize then none
  else if step > msize then none
  else if step = 0 then some []
  else
    let unrolled := m.elements.flatten
    if start + step ≤ unrolled.length then some ((unrolled.drop start).take step)
    else none

/-- `ceil(double(a) / double(b))` for the unsigned sizes involved (exact in
double precision at these magnitudes). -/
def cdiv (a b : Nat) : Nat := (a + b - 1) / b

/-- Rebuild an `n × n` grid from a row-major flattened list. -/
def unflatten {α : Type} (n : Nat) (l : List α) : List (List α) :=
  (List.range n).map fun i => (l.drop (i * n)).take n

/-- `ElementarySquareMatrix<IntElement>::t_oper` (squarematrix.cpp:11-93),
the concurrent elementwise engine, with the worker count `w` (the process
constant `n_threads`) made explicit.  `blocksz` is
`ceil(double(m_size)/double(n_threads))`; `blockct` is
`ceil(m_size / blocksz)` where `m_size / blocksz` is C++ *unsigned integer
division*, so `ceil` is applied to an already floored quotient.  Task `i`
reads blocks `[i*blocksz, i*blocksz+blocksz)` of both operands, computes
`func` elementwise, and all tasks write back only after every task has
finished computing (the mutex/`ends` barrier), so the run is equivalent to
this sequential function: covered indices get `f lhs rhs`, the rest keep
their original values. -/
def tOper (w : Nat) (lhs rhs : SqMat Int) (f : Int → Int → Int) : SqMat Int :=
  let msize := lhs.n ^ 2
  let blocksz := cdiv msize w
  let blockct := if blocksz = 0 then 0 else msize / blocksz
  let covered := blockct * blocksz
  let flatL := lhs.elements.flatten
  let flatR := rhs.elements.flatten
  let newFlat := List.zipWith f (flatL.take covered) (flatR.take covered) ++ flatL.drop covered
  ⟨lhs.n, unflatten lhs.n newFlat⟩

/-- `ConcreteSquareMatrix::operator+=` (squarematrix.cpp:362-374) and the
copying `operator+`: `std::invalid_argument` "Dimension mismatch." (the
spec's `DimensionMismatchError`, modelled by `none`, thrown before any
mutation) when sizes differ, else the engine runs elementwise `+`. -/
def addM (w : Nat) (m1 m2 : SqMat Int) : Option (SqMat Int) :=
  if m1.n ≠ m2.n then none else some (tOper w m1 m2 (· + ·))

/-- `ConcreteSquareMatrix::operator-=` and `operator-`. -/
def subM (w : Nat) (m1 m2 : SqMat Int) : Option (SqMat Int) :=
  if m1.n ≠ m2.n then none else some (tOper w m1 m2 (· - ·))

/-- The inner product loop of `operator*=`: `transform` multiplies a row by
a row of the transposed right operand, then the results are summed. -/
def dotSum (row col : List Int) : Int :=
  (List.zipWith (· * ·) row col).foldl (· + ·) 0

/-- The body of `ConcreteSquareMatrix::operator*=` (squarematrix.cpp:390-422)
after its dimension check: output cell `(i, j)` is `row_i · tm_row_j` where
`tm` is the right operand's transpose. -/
def mulCode (m1 m2 : SqMat Int) : SqMat Int :=
  ⟨m1.n, m1.elements.map fun row => (SqMat.transpose m2).elements.map fun col => dotSum row col⟩

/-- `ConcreteSquareMatrix::operator*=` / `operator*`: dimension check, then
`mulCode`. -/
def mulM (m1 m2 : SqMat Int) : Option (SqMat Int) :=
  if m1.n ≠ m2.n then none else some (mulCode m1 m2)

/-- `ConcreteSquareMatrix::operator/=` (squarematrix.cpp:424-430) /
`operator/`: `*this *= m.transpose()` — multiplication by the right
operand's transpose, including `operator*=`'s dimension check. -/
def divM (m1 m2 : SqMat Int) : Option (SqMat Int) :=
  mulM m1 (SqMat.transpose m2)

/-- Modelled from the spec: the elementwise sum ("the left-hand matrix now
holds the elementwise result"), for comparison against `tOper`. -/
def addSpec (m1 m2 : SqMat Int) : SqMat Int :=
  ⟨m1.n, (List.range m1.n).map fun i =>
    (List.range m1.n).map fun j => m1.entry i j + m2.entry i j⟩

/-- Modelled from the spec: standard row-times-column matrix multiplication
("the dot product of a row of the left matrix and a column of the right
matrix"), for comparison against `mulCode`. -/
def mulSpec (m1 m2 : SqMat Int) : SqMat Int :=
  ⟨m1.n, (List.range m1.n).map fun i =>
    (List.range m1.n).map fun j =>
      ((List.range m1.n).map fun k => m1.entry i k * m2.entry k j).foldl (· + ·) 0⟩

/-- One row of `SymbolicSquareMatrix::evaluate` (squarematrix.cpp:291-311):
each cell evaluated in order; a throw from `Element::evaluate` propagates. -/
def evalRow (val : Valu) : List Element → Option (List Int)
  | [] => some []
  | e :: tl =>
    match evalCell val e, evalRow val tl with
    | some v, some r => some (v :: r)
    | _, _ => none

/-- The row loop of `SymbolicSquareMatrix::evaluate`. -/
def evalRows (val : Valu) : List (List Element) → Option (List (List Int))
  | [] => some []
  | r :: tl =>
    match evalRow val r, evalRows val tl with
    | some v, some rs => some (v :: rs)
    | _, _ => none

/-- `ConcreteSquareMatrix::evaluate` (squarematrix.cpp:313-318): returns a
copy of `*this` — cell-for-cell equal, so the identity here. -/
def evalConc (m : SqMat Int) (_val : Valu) : SqMat Int := m

/-- `SymbolicSquareMatrix::evaluate` (squarematrix.cpp:291-311): evaluate
every cell, then build the result through the checking constructor
`ConcreteSquareMatrix{n, std::move(temp)}`. -/
def evalSym (m : SqMat Element) (val : Valu) : Option (SqMat Int) :=
  (evalRows val m.elements).bind fun rows => mkMat m.n rows

/-- True when every variable cell of `m` is bound in `val` — the exact
condition for `evaluate` not to throw `UndefinedVariableError`. -/
abbrev allDefined (m : SqMat Element) (val : Valu) : Prop :=
  ∀ r ∈ m.elements, ∀ e ∈ r, (evalCell val e).isSome

/-- The integer-only cell read of the `IntElement` parser's `ss >> a`. -/
def readCellC (s : List Char) : Option (Int × List Char) :=
  match readIntE s with
  | Sum.inr (v, r) => some (v, r)
  | Sum.inl _ => none

/-- The symbolic parser's cell read (squarematrix.cpp:236-251): try an
integer; on failure `clear()` and read one character, which must be
alphabetic (a variable name). -/
def readCellSym (s : List Char) : Option (Element × List Char) :=
  match readIntE s with
  | Sum.inr (v, r) => some (Element.int v, r)
  | Sum.inl r =>
    match readChar r with
    | some (c, r2) => if isAlphaC c then some (Element.var c, r2) else none
    | none => none

/-- The row `do … while(c == ',')` loop shared by both string constructors
(squarematrix.cpp:154-166 and 234-256): read a cell and the following
character; continue on `,`, finish on `]`, throw otherwise (all throws are
`std::invalid_argument`, the spec's `ParseError`, modelled by `none`).
Structural recursion on a fuel bounded below by the cell count. -/
def parseCellsF {α : Type} (rc : List Char → Option (α × List Char)) :
    Nat → List Char → List α → Option (List α × List Char)
  | 0, _, _ => none
  | fuel + 1, s, acc =>
    match rc s with
    | none => none
    | some (a, s1) =>
      match readChar s1 with
      | none => none
      | some (c, s2) =>
        if c = ',' then parseCellsF rc fuel s2 (acc ++ [a])
        else if c = ']' then some (acc ++ [a], s2)
        else none

/-- The outer `while(c != ']' && ss.good())` row loop of the string
constructors (squarematrix.cpp:142-178 and 222-268): read a character; `]`
ends the loop, `[` starts a row (whose width must match the first row's,
which sets `n`); any other character, or a failed read, throws.  Returns the
final `n`, the accumulated rows and the unread suffix. -/
def parseRowsF {α : Type} (rc : List Char → Option (α × List Char)) :
    Nat → List Char → List (List α) → Nat → Option (Nat × List (List α) × List Char)
  | 0, _, _, _ => none
  | fuel + 1, s, rows, n =>
    match readChar s with
    | none => none
    | some (c, s1) =>
      if c = ']' then some (n, rows, s1)
      else if c = '[' then
        match parseCellsF rc (s1.length + 1) s1 [] with
        | none => none
        | some (row, s2) =>
          if rows.isEmpty then parseRowsF rc fuel s2 (rows ++ [row]) row.length
          else if row.length = n then parseRowsF rc fuel s2 (rows ++ [row]) n
          else none
      else none

/-- The string constructors `ElementarySquareMatrix(const std::string&)`
(squarematrix.cpp:125-203 concrete, 205-289 symbolic): leading `[`, the row
loop, then the post-loop checks — at least one row (`looped`), row count
equal to `n`, for the concrete parser only `str_m.back() == ']'`
(`checkBack`), and no token after the closing bracket.  All throws are
`std::invalid_argument` (the spec's `ParseError`), modelled by `none`. -/
def parseMatF {α : Type} (rc : List Char → Option (α × List Char))
    (checkBack : Bool) (s : List Char) : Option (Nat × List (List α)) :=
  match readChar s with
  | none => none
  | some (c, s1) =>
    if c = '[' then
      match parseRowsF rc (s1.length + 1) s1 [] 0 with
      | none => none
      | some (n, rows, rest) =>
        if rows.isEmpty then none
        else if rows.length ≠ n then none
        else if checkBack ∧ s.getLast? ≠ some ']' then none
        else
          match readChar rest with
          | some _ => none
          | none => some (n, rows)
    else none

/-- `ConcreteSquareMatrix` from text, on character lists. -/
def parseCL (s : List Char) : Option (SqMat Int) :=
  (parseMatF readCellC true s).map fun p => ⟨p.1, p.2⟩

/-- `SymbolicSquareMatrix` from text, on character lists (no `back()`
check in the symbolic specialization). -/
def parseSL (s : List Char) : Option (SqMat Element) :=
  (parseMatF readCellSym false s).map fun p => ⟨p.1, p.2⟩

/-- `ConcreteSquareMatrix{str}`. -/
def parseC (s : String) : Option (SqMat Int) := parseCL s.data

/-- `SymbolicSquareMatrix{str}`. -/
def parseS (s : String) : Option (SqMat Element) := parseSL s.data

/-- Cells within `int`'s range, as every `IntElement` holds. -/
abbrev intsInRange (m : SqMat Int) : Prop :=
  ∀ r ∈ m.elements, ∀ v ∈ r, -(2 ^ 31) ≤ v ∧ v < 2 ^ 31

/-- A cell an actual matrix can hold: an in-range integer or a variable
with an alphabetic name (the invariant stated in spec §3). -/
def Element.valid : Element → Prop
  | Element.int v => -(2 ^ 31) ≤ v ∧ v < 2 ^ 31
  | Element.var c => isAlphaC c

instance : DecidablePred Element.valid := fun e => by
  unfold Element.valid; cases e <;> infer_instance

/-- All cells valid, for symbolic matrices. -/
abbrev cellsValid (m : SqMat Element) : Prop :=
  ∀ r ∈ m.elements, ∀ e ∈ r, e.valid

/-- The 3×3 matrix `[[1,2,3][4,5,6][7,8,9]]` used throughout the repo's own
tests. -/
def exM3 : SqMat Int := ⟨3, [[1, 2, 3], [4, 5, 6], [7, 8, 9]]⟩

/-- The 2×2 matrix `[[1,2][3,4]]` from the repo's tests. -/
def exM2 : SqMat Int := ⟨2, [[1, 2], [3, 4]]⟩

/-- A symbolic 2×2 matrix `[[1,b][3,h]]` from the repo's tests. -/
def exS2 : SqMat Element :=
  ⟨2, [[Element.int 1, Element.var 'b'], [Element.int 3, Element.var 'h']]⟩

/-- The binding `{b ↦ 2, h ↦ 4}` from the repo's tests. -/
def exVal : Valu := fun c => if c = 'b' then some 2 else if c = 'h' then some 4 else none

/-- A suffix beginning with a cell separator, as `toString` output places
after every rendered cell. -/
def sepHead (s : List Char) : Prop := s.head? = some ',' ∨ s.head? = some ']'

/-- The non-square text of the repo's own error tests
(squarematrix.cpp:669, 740). -/
def nonSquareText : String := "[[1,2,3][4,5,6][7,8,9][10,11,12]]"

/- ------------------------------------------------------------------ -/
/- Theorems.  First, facts about characters, digit strings and the     -/
/- stream-extraction primitives.                                       -/
/- ------------------------------------------------------------------ -/

theorem isDigitC_not_wsp {c : Char} (h : isDigitC c = true) : wsp c = false := by
  simp only [isDigitC, Bool.and_eq_true, decide_eq_true_eq] at h
  simp only [wsp, Bool.or_eq_false_iff, Bool.and_eq_false_iff, decide_eq_false_iff_not, decide_eq_true_eq]
  omega

theorem isAlphaC_not_wsp {c : Char} (h : isAlphaC c = true) : wsp c = false := by
  simp only [isAlphaC, Bool.or_eq_true, Bool.and_eq_true, decide_eq_true_eq] at h
  simp only [wsp, Bool.or_eq_false_iff, Bool.and_eq_false_iff, decide_eq_false_iff_not, decide_eq_true_eq]
  omega

theorem isAlphaC_not_digit {c : Char} (h : isAlphaC c = true) : isDigitC c = false := by
  simp only [isAlphaC, Bool.or_eq_true, Bool.and_eq_true, decide_eq_true_eq] at h
  simp only [isDigitC, Bool.and_eq_false_iff, decide_eq_false_iff_not, decide_eq_true_eq]
  omega

theorem isDigitC_ne_minus {c : Char} (h : isDigitC c = true) : c ≠ '-' := by
  intro hc; subst hc; simp [isDigitC] at h

theorem isDigitC_ne_plus {c : Char} (h : isDigitC c = true) : c ≠ '+' := by
  intro hc; subst hc; simp [isDigitC] at h

theorem isAlphaC_ne_minus {c : Char} (h : isAlphaC c = true) : c ≠ '-' := by
  intro hc; subst hc; simp [isAlphaC] at h

theorem isAlphaC_ne_plus {c : Char} (h : isAlphaC c = true) : c ≠ '+' := by
  intro hc; subst hc; simp [isAlphaC] at h

theorem isDigitC_digitChar {d : Nat} (h : d < 10) : isDigitC (digitChar d) = true := by
  interval_cases d <;> decide

theorem digitVal_digitChar {d : Nat} (h : d < 10) : digitVal (digitChar d) = d := by
  interval_cases d <;> decide

theorem skipWs_cons {c : Char} {t : List Char} (h : wsp c = false) :
    skipWs (c :: t) = c :: t := by
  simp [skipWs, List.dropWhile_cons, h]

theorem natCharsAux_fuel : ∀ (f1 f2 n : Nat), n < f1 → n < f2 →
    natCharsAux f1 n = natCharsAux f2 n := by
  intro f1
  induction f1 with
  | zero => intro f2 n h; omega
  | succ g1 ih =>
    intro f2 n h1 h2
    obtain ⟨g2, rfl⟩ : ∃ g2, f2 = g2 + 1 := ⟨f2 - 1, by omega⟩
    rw [natCharsAux, natCharsAux]
    split
    · rfl
    · next h =>
      rw [ih g2 (n / 10) (by omega) (by omega)]

theorem natChars_unfold (n : Nat) : natChars n =
    if n < 10 then [digitChar n] else natChars (n / 10) ++ [digitChar (n % 10)] := by
  rw [natChars, natCharsAux]
  split
  · rfl
  · next h =>
    rw [natChars, natCharsAux_fuel n (n / 10 + 1) (n / 10) (by omega) (by omega)]

theorem natChars_ne_nil (n : Nat) : natChars n ≠ [] := by
  rw [natChars_unfold]
  split
  · simp
  · simp

theorem natChars_digits (n : Nat) : ∀ c ∈ natChars n, isDigitC c = true := by
  induction n using Nat.strong_induction_on with
  | _ n ih =>
    rw [natChars_unfold]
    by_cases h : n < 10
    · rw [if_pos h]
      intro c hc
      rw [List.mem_singleton] at hc
      subst hc
      exact isDigitC_digitChar h
    · rw [if_neg h]
      intro c hc
      rcases List.mem_append.mp hc with h1 | h1
      · exact ih (n / 10) (Nat.div_lt_self (by omega) (by omega)) c h1
      · rw [List.mem_singleton] at h1
        subst h1
        exact isDigitC_digitChar (Nat.mod_lt _ (by omega))

theorem natChars_length_pos (n : Nat) : 0 < (natChars n).length :=
  List.length_pos.mpr (natChars_ne_nil n)

theorem readDigits_natChars (n : Nat) :
    ∀ acc rest, readDigits acc (natChars n ++ rest) =
      readDigits (acc * 10 ^ (natChars n).length + n) rest := by
  induction n using Nat.strong_induction_on with
  | _ n ih =>
    intro acc rest
    by_cases h : n < 10
    · rw [natChars_unfold, if_pos h]
      simp only [List.singleton_append, readDigits, isDigitC_digitChar h,
        digitVal_digitChar h, List.length_singleton, if_pos rfl]
      simp
      congr 1
      ring
    · rw [natChars_unfold, if_neg h]
      rw [List.append_assoc, ih (n / 10) (Nat.div_lt_self (by omega) (by omega)),
        List.singleton_append]
      simp only [readDigits, isDigitC_digitChar (Nat.mod_lt _ (by omega)),
        digitVal_digitChar (Nat.mod_lt _ (by omega))]
      rw [if_pos trivial]
      rw [List.length_append, List.length_singleton, pow_succ, ← mul_assoc]
      congr 1
      generalize acc * 10 ^ (natChars (n / 10)).length = A
      omega

theorem readDigits_stop {rest : List Char}
    (h : rest = [] ∨ ∃ c cs, rest = c :: cs ∧ isDigitC c = false) (a : Nat) :
    readDigits a rest = (a, rest) := by
  rcases h with rfl | ⟨c, cs, rfl, hc⟩
  · rfl
  · simp [readDigits, hc]

theorem readNat_natChars (n : Nat) {rest : List Char}
    (h : rest = [] ∨ ∃ c cs, rest = c :: cs ∧ isDigitC c = false) :
    readNat (natChars n ++ rest) = some (n, rest) := by
  obtain ⟨c, cs, hcons⟩ : ∃ c cs, natChars n = c :: cs := by
    cases hx : natChars n with
    | nil => exact absurd hx (natChars_ne_nil n)
    | cons c cs => exact ⟨c, cs, rfl⟩
  have hc : isDigitC c = true := natChars_digits n c (hcons ▸ List.mem_cons_self c cs)
  have h2 : readDigits 0 (natChars n ++ rest) = (n, rest) := by
    rw [readDigits_natChars, readDigits_stop h]
    simp
  rw [hcons, List.cons_append, readNat, hc, if_pos rfl, ← List.cons_append, ← hcons, h2]

theorem sepHead_not_digit {rest : List Char} (h : sepHead rest) :
    rest = [] ∨ ∃ c cs, rest = c :: cs ∧ isDigitC c = false := by
  rcases h with h | h <;>
  · cases rest with
    | nil => simp at h
    | cons c cs =>
      simp only [List.head?_cons, Option.some.injEq] at h
      subst h
      exact Or.inr ⟨_, _, rfl, by decide⟩

theorem readIntE_intChars {v : Int} (h1 : -(2 ^ 31) ≤ v) (h2 : v < 2 ^ 31)
    {rest : List Char} (hr : sepHead rest) :
    readIntE (intChars v ++ rest) = Sum.inr (v, rest) := by
  have hstop := sepHead_not_digit hr
  by_cases hv : v < 0
  · have hskip : skipWs ('-' :: (natChars v.natAbs ++ rest)) =
        '-' :: (natChars v.natAbs ++ rest) := skipWs_cons (by decide)
    have hn := readNat_natChars v.natAbs hstop
    rw [intChars, if_pos hv, List.cons_append]
    simp only [readIntE, hskip, hn]
    have hle : ((v.natAbs : Int)) ≤ 2 ^ 31 := by omega
    rw [if_pos trivial, if_pos hle]
    congr 2
    omega
  · rw [intChars, if_neg hv]
    obtain ⟨c, cs, hcons⟩ : ∃ c cs, natChars v.toNat = c :: cs := by
      cases hx : natChars v.toNat with
      | nil => exact absurd hx (natChars_ne_nil _)
      | cons c cs => exact ⟨c, cs, rfl⟩
    have hc : isDigitC c = true := natChars_digits _ c (hcons ▸ List.mem_cons_self c cs)
    have hskip : skipWs (c :: (cs ++ rest)) = c :: (cs ++ rest) :=
      skipWs_cons (isDigitC_not_wsp hc)
    have hn : readNat (c :: (cs ++ rest)) = some (v.toNat, rest) := by
      rw [← List.cons_append, ← hcons]
      exact readNat_natChars v.toNat hstop
    rw [hcons, List.cons_append]
    simp only [readIntE, hskip, hn]
    have hlt : ((v.toNat : Int)) < 2 ^ 31 := by omega
    rw [if_neg (isDigitC_ne_minus hc), if_neg (isDigitC_ne_plus hc), if_pos hlt]
    congr 2
    omega

theorem readCellC_render {v : Int} (h1 : -(2 ^ 31) ≤ v) (h2 : v < 2 ^ 31)
    {rest : List Char} (hr : sepHead rest) :
    readCellC (intChars v ++ rest) = some (v, rest) := by
  rw [readCellC, readIntE_intChars h1 h2 hr]

theorem readCellSym_render {e : Element} (hv : e.valid)
    {rest : List Char} (hr : sepHead rest) :
    readCellSym (elemChars e ++ rest) = some (e, rest) := by
  cases e with
  | int v =>
    rw [elemChars, readCellSym, readIntE_intChars hv.1 hv.2 hr]
  | var c =>
    have ha : isAlphaC c = true := hv
    have hskip : skipWs (c :: rest) = c :: rest := skipWs_cons (isAlphaC_not_wsp ha)
    have hnat : readNat (c :: rest) = none := by
      rw [readNat, isAlphaC_not_digit ha, if_neg (by simp)]
    rw [elemChars, List.singleton_append, readCellSym]
    simp only [readIntE, hskip, hnat, if_neg (isAlphaC_ne_minus ha),
      if_neg (isAlphaC_ne_plus ha), readChar, ha, if_pos rfl]
    simp

theorem joinComma_length (l : List (List Char)) :
    l.length ≤ (joinComma l).length + 1 := by
  induction l with
  | nil => simp
  | cons x xs ih =>
    cases xs with
    | nil => simp [joinComma]
    | cons y ys =>
      rw [joinComma]
      · simp only [List.length_cons, List.length_append] at ih ⊢
        omega
      · simp

theorem flatten_length_ge {α : Type} (L : List (List α))
    (h : ∀ x ∈ L, 0 < x.length) : L.length ≤ L.flatten.length := by
  induction L with
  | nil => simp
  | cons x xs ih =>
    rw [List.flatten_cons, List.length_append, List.length_cons]
    have hx := h x (List.mem_cons_self _ _)
    have := ih fun y hy => h y (List.mem_cons_of_mem _ hy)
    omega

theorem parseCellsF_render {α : Type} {rc : List Char → Option (α × List Char)}
    {rcell : α → List Char} {P : α → Prop}
    (H : ∀ a, P a → ∀ r2, sepHead r2 → rc (rcell a ++ r2) = some (a, r2)) :
    ∀ (cells : List α) (fuel : Nat) (acc : List α) (rest : List Char),
      cells ≠ [] → cells.length ≤ fuel → (∀ a ∈ cells, P a) →
      parseCellsF rc fuel (joinComma (cells.map rcell) ++ ']' :: rest) acc =
        some (acc ++ cells, rest) := by
  intro cells
  induction cells with
  | nil => intro fuel acc rest hne; exact absurd rfl hne
  | cons a tl ih =>
    intro fuel acc rest _hne hfuel hP
    obtain ⟨f, rfl⟩ : ∃ f, fuel = f + 1 := by
      cases fuel with
      | zero => simp at hfuel
      | succ f => exact ⟨f, rfl⟩
    cases tl with
    | nil =>
      have hc := H a (hP a (List.mem_cons_self _ _)) (']' :: rest) (Or.inr rfl)
      rw [List.map_singleton, joinComma, parseCellsF, hc]
      simp only [readChar, skipWs_cons (c := ']') (by decide)]
      rw [if_neg (show ¬(']' = ',') by decide)]
      simp
    | cons b tl2 =>
      have hc := H a (hP a (List.mem_cons_self _ _))
        (',' :: (joinComma ((b :: tl2).map rcell) ++ ']' :: rest)) (Or.inl rfl)
      rw [List.map_cons, joinComma, List.append_assoc, List.cons_append]
      rw [parseCellsF]
      rw [show rcell a ++ ',' :: (joinComma (List.map rcell (b :: tl2)) ++ ']' :: rest) =
        rcell a ++ (',' :: (joinComma (List.map rcell (b :: tl2)) ++ ']' :: rest)) from rfl]
      rw [hc]
      simp only [readChar, skipWs_cons (c := ',') (by decide), if_pos rfl]
      rw [ih f (acc ++ [a]) rest (by simp) (by simp at hfuel ⊢; omega)
        (fun x hx => hP x (List.mem_cons_of_mem _ hx)), List.append_assoc,
        List.singleton_append]
      · simp
      · simp

theorem parseRowsF_render {α : Type} {rc : List Char → Option (α × List Char)}
    {rcell : α → List Char} {P : α → Prop}
    (H : ∀ a, P a → ∀ r2, sepHead r2 → rc (rcell a ++ r2) = some (a, r2)) :
    ∀ (rows : List (List α)) (fuel : Nat) (acc : List (List α)) (n0 : Nat)
      (rest : List Char),
      acc ≠ [] → rows.length < fuel →
      (∀ r ∈ rows, r.length = n0 ∧ r ≠ [] ∧ ∀ a ∈ r, P a) →
      parseRowsF rc fuel ((rows.map (rowChars rcell)).flatten ++ ']' :: rest) acc n0 =
        some (n0, acc ++ rows, rest) := by
  intro rows
  induction rows with
  | nil =>
    intro fuel acc n0 rest _hacc hfuel _hrows
    obtain ⟨f, rfl⟩ : ∃ f, fuel = f + 1 := ⟨fuel - 1, by omega⟩
    rw [List.map_nil, List.flatten_nil, List.nil_append, parseRowsF]
    simp only [readChar, skipWs_cons (c := ']') (by decide), if_pos rfl]
    simp
  | cons r tl ih =>
    intro fuel acc n0 rest hacc hfuel hrows
    obtain ⟨f, rfl⟩ : ∃ f, fuel = f + 1 := ⟨fuel - 1, by omega⟩
    obtain ⟨hlen, hne, hP⟩ := hrows r (List.mem_cons_self _ _)
    have hin : ((r :: tl).map (rowChars rcell)).flatten ++ ']' :: rest =
        '[' :: (joinComma (r.map rcell) ++ ']' ::
          ((tl.map (rowChars rcell)).flatten ++ ']' :: rest)) := by
      simp [rowChars, List.append_assoc]
    rw [hin, parseRowsF]
    simp only [readChar, skipWs_cons (c := '[') (by decide)]
    rw [if_neg (show ¬('[' = ']') by decide), if_pos trivial]
    rw [parseCellsF_render H r _ [] _ hne (by
      simp only [List.length_append, List.length_cons]
      have h1 := joinComma_length (r.map rcell)
      simp only [List.length_map] at h1
      omega) hP]
    have haccE : acc.isEmpty = false := by
      cases acc with
      | nil => exact absurd rfl hacc
      | cons _ _ => rfl
    rw [List.nil_append]
    simp only [haccE, Bool.false_eq_true, if_false, hlen]
    rw [if_pos trivial]
    rw [ih f (acc ++ [r]) n0 rest (by simp) (by simp at hfuel ⊢; omega)
      (fun x hx => hrows x (List.mem_cons_of_mem _ hx))]
    simp

theorem parseRowsF_render_start {α : Type} {rc : List Char → Option (α × List Char)}
    {rcell : α → List Char} {P : α → Prop}
    (H : ∀ a, P a → ∀ r2, sepHead r2 → rc (rcell a ++ r2) = some (a, r2))
    (r0 : List α) (tl : List (List α)) (fuel : Nat) (rest : List Char)
    (hfuel : tl.length + 2 ≤ fuel)
    (hrows : ∀ r ∈ r0 :: tl, r.length = r0.length ∧ r ≠ [] ∧ ∀ a ∈ r, P a) :
    parseRowsF rc fuel (((r0 :: tl).map (rowChars rcell)).flatten ++ ']' :: rest) [] 0 =
      some (r0.length, r0 :: tl, rest) := by
  obtain ⟨f, rfl⟩ : ∃ f, fuel = f + 1 := ⟨fuel - 1, by omega⟩
  obtain ⟨_, hne, hP⟩ := hrows r0 (List.mem_cons_self _ _)
  have hin : ((r0 :: tl).map (rowChars rcell)).flatten ++ ']' :: rest =
      '[' :: (joinComma (r0.map rcell) ++ ']' ::
        ((tl.map (rowChars rcell)).flatten ++ ']' :: rest)) := by
    simp [rowChars, List.append_assoc]
  rw [hin, parseRowsF]
  simp only [readChar, skipWs_cons (c := '[') (by decide)]
  rw [if_neg (show ¬('[' = ']') by decide), if_pos trivial]
  rw [parseCellsF_render H r0 _ [] _ hne (by
    simp only [List.length_append, List.length_cons]
    have h1 := joinComma_length (r0.map rcell)
    simp only [List.length_map] at h1
    omega) hP]
  rw [List.nil_append]
  simp only [List.isEmpty_nil]
  rw [if_pos trivial, List.nil_append]
  rw [parseRowsF_render H tl f [r0] r0.length rest (by simp) (by omega)
    (fun x hx => hrows x (List.mem_cons_of_mem _ hx))]
  simp

theorem matChars_getLast {α : Type} (rcell : α → List Char) (m : SqMat α) :
    (matChars rcell m).getLast? = some ']' := by
  rw [matChars]
  exact List.getLast?_concat _

theorem cons_append_getLast {a b : Char} (l : List Char) :
    (a :: (l ++ [b])).getLast? = some b := by
  rw [← List.cons_append]
  exact List.getLast?_concat _

theorem parseMatF_render {α : Type} {rc : List Char → Option (α × List Char)}
    {rcell : α → List Char} {P : α → Prop}
    (H : ∀ a, P a → ∀ r2, sepHead r2 → rc (rcell a ++ r2) = some (a, r2))
    (cb : Bool) (m : SqMat α) (hwf : m.wf) (hn : 0 < m.n)
    (hP : ∀ r ∈ m.elements, ∀ a ∈ r, P a) :
    parseMatF rc cb (matChars rcell m) = some (m.n, m.elements) := by
  obtain ⟨r0, tl, hels⟩ : ∃ r0 tl, m.elements = r0 :: tl := by
    cases hx : m.elements with
    | nil =>
      exfalso
      have := hwf.1
      rw [hx] at this
      simp at this
      omega
    | cons a b => exact ⟨a, b, rfl⟩
  have h2 : r0.length = m.n := hwf.2 r0 (hels ▸ List.mem_cons_self _ _)
  have hrows : ∀ r ∈ r0 :: tl, r.length = r0.length ∧ r ≠ [] ∧ ∀ a ∈ r, P a := by
    intro r hr
    have h1 : r.length = m.n := hwf.2 r (hels ▸ hr)
    refine ⟨by omega, ?_, fun a ha => hP r (hels ▸ hr) a ha⟩
    intro hnil
    rw [hnil] at h1
    simp at h1
    omega
  have hmat : matChars rcell m =
      '[' :: (((r0 :: tl).map (rowChars rcell)).flatten ++ ']' :: []) := by
    rw [matChars, hels]
    simp
  have hflat : tl.length + 1 ≤ ((r0 :: tl).map (rowChars rcell)).flatten.length := by
    have := flatten_length_ge ((r0 :: tl).map (rowChars rcell)) (by
      intro x hx
      obtain ⟨r, _, rfl⟩ := List.mem_map.mp hx
      simp [rowChars])
    simpa using this
  rw [hmat, parseMatF]
  simp only [readChar, skipWs_cons (c := '[') (by decide)]
  rw [if_pos trivial]
  rw [parseRowsF_render_start H r0 tl _ [] (by
    simp only [List.length_append, List.length_cons]
    omega) hrows]
  have hne : ¬((r0 :: tl).length ≠ r0.length) := by
    have : (r0 :: tl).length = m.n := by rw [← hels]; exact hwf.1
    omega
  have hlast : ('[' :: (((r0 :: tl).map (rowChars rcell)).flatten ++ ']' :: [])).getLast? =
      some ']' := cons_append_getLast _
  simp only [List.isEmpty_cons, Bool.false_eq_true, if_false, skipWs, List.dropWhile_nil]
  rw [if_neg hne, if_neg (fun h => absurd hlast h.2)]
  rw [hels, h2]

theorem wf_flatten_length {α : Type} {m : SqMat α} (h : m.wf) :
    m.elements.flatten.length = m.n * m.n := by
  rw [List.length_flatten]
  have : m.elements.map List.length = List.replicate m.n m.n := by
    apply List.eq_replicate_iff.mpr
    constructor
    · rw [List.length_map, h.1]
    · intro x hx
      obtain ⟨r, hr, rfl⟩ := List.mem_map.mp hx
      exact h.2 r hr
  rw [this, List.sum_replicate, smul_eq_mul]

theorem transpose_n {α : Type} [Inhabited α] (m : SqMat α) : m.transpose.n = m.n := rfl

theorem wf_transpose {α : Type} [Inhabited α] {m : SqMat α} (h : m.wf) :
    m.transpose.wf := by
  constructor
  · simp [SqMat.transpose]
  · intro r hr
    simp only [SqMat.transpose] at hr
    obtain ⟨j, _, rfl⟩ := List.mem_map.mp hr
    simp [SqMat.transpose, h.1]

theorem entry_transpose {α : Type} [Inhabited α] {m : SqMat α} (h : m.wf)
    {i j : Nat} (hi : i < m.n) (hj : j < m.n) :
    m.transpose.entry i j = m.entry j i := by
  have h1 : i < ((List.range m.n).map fun c =>
      m.elements.map fun row => row.getD c default).length := by simp [hi]
  have h2 : j < (m.elements.map fun row => row.getD i default).length := by
    simp [h.1, hj]
  have h3 : j < m.elements.length := by rw [h.1]; exact hj
  rw [SqMat.entry, SqMat.transpose, List.getD_eq_getElem _ _ h1, List.getElem_map,
    List.getElem_range, List.getD_eq_getElem _ _ h2, List.getElem_map]
  rw [SqMat.entry, List.getD_eq_getElem _ _ h3]

theorem transpose_transpose {α : Type} [Inhabited α] {m : SqMat α} (h : m.wf) :
    m.transpose.transpose = m := by
  obtain ⟨n, els⟩ := m
  obtain ⟨h1, h2⟩ := h
  simp only at h1
  simp only [SqMat.transpose, SqMat.mk.injEq, true_and]
  apply List.ext_getElem
  · simp [h1]
  · intro i hi1 hi2
    have hin : i < n := hi2.trans_eq h1
    rw [List.getElem_map, List.getElem_range]
    have hrowlen : els[i].length = n := h2 _ (List.getElem_mem _)
    apply List.ext_getElem
    · simp [hrowlen]
    · intro j hj1 hj2
      have hjn : j < n := by simpa using hj1
      rw [List.getElem_map, List.getElem_map, List.getElem_range]
      have hie : i < (els.map fun row => row.getD j default).length := by
        rw [List.length_map, h1]
        exact hin
      rw [List.getD_eq_getElem _ _ hie, List.getElem_map, List.getD_eq_getElem _ _ hj2]

theorem parseRowsF_shape {α : Type} {rc : List Char → Option (α × List Char)} :
    ∀ (fuel : Nat) (s : List Char) (acc : List (List α)) (n0 n2 : Nat)
      (rows : List (List α)) (rest : List Char),
      parseRowsF rc fuel s acc n0 = some (n2, rows, rest) →
      (∀ r ∈ acc, r.length = n0) →
      (∀ r ∈ rows, r.length = n2) ∧ (acc ≠ [] → n2 = n0) := by
  intro fuel
  induction fuel with
  | zero => intro s acc n0 n2 rows rest h; simp [parseRowsF] at h
  | succ f ih =>
    intro s acc n0 n2 rows rest h hacc
    rw [parseRowsF] at h
    rcases hrc : readChar s with _ | ⟨c, s1⟩
    · rw [hrc] at h; simp at h
    · rw [hrc] at h
      simp only at h
      by_cases hc1 : c = ']'
      · rw [if_pos hc1] at h
        simp only [Option.some.injEq, Prod.mk.injEq] at h
        obtain ⟨he1, he2, _⟩ := h
        subst he1
        subst he2
        exact ⟨hacc, fun _ => rfl⟩
      · rw [if_neg hc1] at h
        by_cases hc2 : c = '['
        · rw [if_pos hc2] at h
          rcases hp : parseCellsF rc (s1.length + 1) s1 [] with _ | ⟨row, s2⟩
          · rw [hp] at h; simp at h
          · rw [hp] at h
            simp only at h
            by_cases hemp : acc.isEmpty
            · rw [if_pos hemp] at h
              have hacc2 : acc = [] := List.isEmpty_iff.mp hemp
              subst hacc2
              have := ih s2 [row] row.length n2 rows rest h (by simp)
              exact ⟨this.1, fun hcon => absurd rfl hcon⟩
            · rw [if_neg hemp] at h
              by_cases hlen : row.length = n0
              · rw [if_pos hlen] at h
                have := ih s2 (acc ++ [row]) n0 n2 rows rest h (by
                  intro r hr
                  rcases List.mem_append.mp hr with h1 | h1
                  · exact hacc r h1
                  · rw [List.mem_singleton] at h1; subst h1; exact hlen)
                exact ⟨this.1, fun _ => this.2 (by simp)⟩
              · rw [if_neg hlen] at h; simp at h
        · rw [if_neg hc2] at h; simp at h

theorem parseMatF_wf {α : Type} {rc : List Char → Option (α × List Char)}
    {cb : Bool} {s : List Char} {n : Nat} {rows : List (List α)}
    (h : parseMatF rc cb s = some (n, rows)) :
    rows.length = n ∧ ∀ r ∈ rows, r.length = n := by
  rw [parseMatF] at h
  rcases hrc : readChar s with _ | ⟨c, s1⟩
  · rw [hrc] at h; simp at h
  · rw [hrc] at h
    simp only at h
    by_cases hc1 : c = '['
    · rw [if_pos hc1] at h
      rcases hp : parseRowsF rc (s1.length + 1) s1 [] 0 with _ | ⟨n2, rows2, rest⟩
      · rw [hp] at h; simp at h
      · rw [hp] at h
        simp only at h
        by_cases he : rows2.isEmpty
        · rw [if_pos he] at h; simp at h
        · rw [if_neg he] at h
          by_cases hl : rows2.length ≠ n2
          · rw [if_pos hl] at h; simp at h
          · rw [if_neg hl] at h
            have hshape := parseRowsF_shape (s1.length + 1) s1 [] 0 n2 rows2 rest hp
              (by simp)
            by_cases hcb : cb ∧ s.getLast? ≠ some ']'
            · rw [if_pos hcb] at h; simp at h
            · rw [if_neg hcb] at h
              rcases hr2 : readChar rest with _ | y
              · rw [hr2] at h
                simp only [Option.some.injEq, Prod.mk.injEq] at h
                obtain ⟨h1, h2⟩ := h
                subst h1
                subst h2
                exact ⟨by omega, hshape.1⟩
              · rw [hr2] at h; simp at h
    · rw [if_neg hc1] at h; simp at h

theorem parseCL_wf {s : List Char} {m : SqMat Int} (h : parseCL s = some m) : m.wf := by
  rw [parseCL] at h
  rcases hp : parseMatF readCellC true s with _ | ⟨n, rows⟩
  · rw [hp] at h; exact Option.noConfusion h
  · rw [hp] at h
    simp only [Option.map_some'] at h
    obtain rfl := Option.some.inj h
    have := parseMatF_wf hp
    exact ⟨this.1, this.2⟩

theorem parseSL_wf {s : List Char} {m : SqMat Element} (h : parseSL s = some m) : m.wf := by
  rw [parseSL] at h
  rcases hp : parseMatF readCellSym false s with _ | ⟨n, rows⟩
  · rw [hp] at h; exact Option.noConfusion h
  · rw [hp] at h
    simp only [Option.map_some'] at h
    obtain rfl := Option.some.inj h
    have := parseMatF_wf hp
    exact ⟨this.1, this.2⟩

theorem mkMat_eq_some {α : Type} {n : Nat} {els : List (List α)} {m : SqMat α}
    (h : mkMat n els = some m) :
    m = ⟨n, els⟩ ∧ els.length = n ∧ ∀ r ∈ els, r.length = n := by
  rw [mkMat] at h
  by_cases h1 : n ≠ els.length
  · rw [if_pos h1] at h; simp at h
  · rw [if_neg h1] at h
    by_cases h2 : ∀ r ∈ els, r.length = n
    · rw [if_pos h2] at h
      exact ⟨(Option.some.inj h).symm, by omega, h2⟩
    · rw [if_neg h2] at h; simp at h

theorem mkMat_isSome {α : Type} (n : Nat) (els : List (List α)) :
    (mkMat n els).isSome ↔ (els.length = n ∧ ∀ r ∈ els, r.length = n) := by
  rw [mkMat]
  constructor
  · intro h
    by_cases h1 : n ≠ els.length
    · rw [if_pos h1] at h; simp at h
    · by_cases h2 : ∀ r ∈ els, r.length = n
      · exact ⟨by omega, h2⟩
      · rw [if_neg h1, if_neg h2] at h; simp at h
  · intro ⟨h1, h2⟩
    rw [if_neg (by omega), if_pos h2]
    rfl

theorem block_in_range {α : Type} {m : SqMat α} (h : m.wf) {start step : Nat}
    (h1 : start ≤ m.n ^ 2) (h2 : step ≤ m.n ^ 2) (h3 : start + step ≤ m.n ^ 2) :
    m.block start step = some ((m.elements.flatten.drop start).take step) := by
  have hlen : m.elements.flatten.length = m.n ^ 2 := by
    rw [wf_flatten_length h, pow_two]
  rw [SqMat.block]
  simp only
  rw [if_neg (by omega), if_neg (by omega)]
  by_cases h0 : step = 0
  · subst h0
    rw [if_pos rfl]
    simp
  · rw [if_neg h0, if_pos (by omega)]

theorem evalRow_isSome (val : Valu) (r : List Element) :
    (evalRow val r).isSome ↔ ∀ e ∈ r, (evalCell val e).isSome := by
  induction r with
  | nil => simp [evalRow]
  | cons e tl ih =>
    rw [evalRow]
    rcases he : evalCell val e with _ | v
    · simp only
      constructor
      · intro hx
        simp at hx
      · intro hx
        have := hx e (List.mem_cons_self _ _)
        rw [he] at this
        simp at this
    · rcases hy : evalRow val tl with _ | rs
      · simp only
        constructor
        · intro hx; simp at hx
        · intro hx
          have : ∀ e ∈ tl, (evalCell val e).isSome := fun x hx2 =>
            hx x (List.mem_cons_of_mem _ hx2)
          rw [← ih, hy] at this
          simp at this
      · simp only
        constructor
        · intro _ x hx2
          rcases List.mem_cons.mp hx2 with rfl | hmem
          · rw [he]; rfl
          · exact (ih.mp (by rw [hy]; rfl)) x hmem
        · intro _; rfl

theorem evalRow_some {val : Valu} {r : List Element} {r2 : List Int}
    (h : evalRow val r = some r2) :
    r2.length = r.length ∧
    ∀ j, j < r.length → evalCell val (r.getD j default) = some (r2.getD j 0) := by
  induction r generalizing r2 with
  | nil =>
    rw [evalRow] at h
    obtain rfl := Option.some.inj h
    exact ⟨rfl, fun j hj => absurd hj (by simp)⟩
  | cons e tl ih =>
    rw [evalRow] at h
    rcases he : evalCell val e with _ | v <;> rw [he] at h
    · exact Option.noConfusion h
    · rcases hy : evalRow val tl with _ | rs <;> rw [hy] at h
      · exact Option.noConfusion h
      · obtain rfl := (Option.some.inj h).symm
        obtain ⟨hl, hj⟩ := ih hy
        refine ⟨by simp [hl], ?_⟩
        intro j hjl
        cases j with
        | zero => simpa using he
        | succ k =>
          simp only [List.getD_cons_succ]
          exact hj k (by simpa using hjl)

theorem evalRows_isSome (val : Valu) (rs : List (List Element)) :
    (evalRows val rs).isSome ↔ ∀ r ∈ rs, (evalRow val r).isSome := by
  induction rs with
  | nil => simp [evalRows]
  | cons r tl ih =>
    rw [evalRows]
    rcases he : evalRow val r with _ | v
    · simp only
      constructor
      · intro hx
        simp at hx
      · intro hx
        have := hx r (List.mem_cons_self _ _)
        rw [he] at this
        simp at this
    · rcases hy : evalRows val tl with _ | rs2
      · simp only
        constructor
        · intro hx; simp at hx
        · intro hx
          have : ∀ x ∈ tl, (evalRow val x).isSome := fun x hx2 =>
            hx x (List.mem_cons_of_mem _ hx2)
          rw [← ih, hy] at this
          simp at this
      · simp only
        constructor
        · intro _ x hx2
          rcases List.mem_cons.mp hx2 with rfl | hmem
          · rw [he]; rfl
          · exact (ih.mp (by rw [hy]; rfl)) x hmem
        · intro _; rfl

theorem evalRows_some {val : Valu} {rs : List (List Element)} {rs2 : List (List Int)}
    (h : evalRows val rs = some rs2) :
    rs2.length = rs.length ∧
    ∀ i, i < rs.length → evalRow val (rs.getD i []) = some (rs2.getD i []) := by
  induction rs generalizing rs2 with
  | nil =>
    rw [evalRows] at h
    obtain rfl := Option.some.inj h
    exact ⟨rfl, fun i hi => absurd hi (by simp)⟩
  | cons r tl ih =>
    rw [evalRows] at h
    rcases he : evalRow val r with _ | v <;> rw [he] at h
    · exact Option.noConfusion h
    · rcases hy : evalRows val tl with _ | rest <;> rw [hy] at h
      · exact Option.noConfusion h
      · obtain rfl := (Option.some.inj h).symm
        obtain ⟨hl, hi⟩ := ih hy
        refine ⟨by simp [hl], ?_⟩
        intro i hil
        cases i with
        | zero => simpa using he
        | succ k =>
          simp only [List.getD_cons_succ]
          exact hi k (by simpa using hil)

theorem unflatten_wf {α : Type} {n : Nat} {l : List α} (h : l.length = n * n) :
    (SqMat.mk n (unflatten n l)).wf := by
  constructor
  · simp [unflatten]
  · intro r hr
    simp only [unflatten] at hr
    obtain ⟨i, hi, rfl⟩ := List.mem_map.mp hr
    rw [List.mem_range] at hi
    have hbound : (i + 1) * n ≤ n * n := Nat.mul_le_mul_right n (by omega)
    rw [add_mul, one_mul] at hbound
    simp only [List.length_take, List.length_drop, h]
    omega

theorem wf_tOper {w : Nat} {m1 m2 : SqMat Int} (h1 : m1.wf) (h2 : m2.wf)
    (hn : m1.n = m2.n) (f : Int → Int → Int) : (tOper w m1 m2 f).wf := by
  have hL : m1.elements.flatten.length = m1.n * m1.n := wf_flatten_length h1
  have hR : m2.elements.flatten.length = m1.n * m1.n := by
    rw [wf_flatten_length h2, hn]
  simp only [tOper]
  apply unflatten_wf
  have hcov : (if cdiv (m1.n ^ 2) w = 0 then 0 else m1.n ^ 2 / cdiv (m1.n ^ 2) w) *
      cdiv (m1.n ^ 2) w ≤ m1.n ^ 2 := by
    split
    · simp
    · exact Nat.div_mul_le_self _ _
  rw [pow_two] at hcov
  simp only [List.length_append, List.length_zipWith, List.length_take, List.length_drop,
    hL, hR]
  omega

theorem wf_mulCode {m1 m2 : SqMat Int} (h1 : m1.wf) (_h2 : m2.wf) (hn : m1.n = m2.n) :
    (mulCode m1 m2).wf := by
  constructor
  · simp [mulCode, h1.1]
  · intro r hr
    simp only [mulCode] at hr
    obtain ⟨row, _, rfl⟩ := List.mem_map.mp hr
    simp [SqMat.transpose, mulCode, hn]

theorem dotSum_eq {l1 l2 : List Int} {n : Nat} (h1 : l1.length = n) (h2 : l2.length = n) :
    dotSum l1 l2 =
      ((List.range n).map fun k => l1.getD k default * l2.getD k default).foldl (· + ·) 0 := by
  rw [dotSum]
  congr 1
  apply List.ext_getElem
  · simp [h1, h2]
  · intro k hk1 hk2
    have hkn : k < n := by
      rw [List.length_zipWith, h1, h2] at hk1
      omega
    rw [List.getElem_zipWith, List.getElem_map, List.getElem_range,
      List.getD_eq_getElem _ _ (by omega), List.getD_eq_getElem _ _ (by omega)]

theorem mulCode_eq_mulSpec {m1 m2 : SqMat Int} (h1 : m1.wf) (h2 : m2.wf)
    (hn : m1.n = m2.n) : mulCode m1 m2 = mulSpec m1 m2 := by
  simp only [mulCode, mulSpec, SqMat.mk.injEq, true_and]
  apply List.ext_getElem
  · simp [h1.1]
  · intro i hi1 hi2
    have hin : i < m1.n := by
      rw [List.length_map, h1.1] at hi1
      exact hi1
    rw [List.getElem_map, List.getElem_map, List.getElem_range]
    apply List.ext_getElem
    · simp [SqMat.transpose, hn]
    · intro j hj1 hj2
      have hjn : j < m1.n := by
        rw [List.length_map] at hj1
        simpa [SqMat.transpose, ← hn] using hj1
      rw [List.getElem_map, List.getElem_map, List.getElem_range]
      have htj : ∀ (hb : j < (SqMat.transpose m2).elements.length),
          (SqMat.transpose m2).elements[j] =
            m2.elements.map fun row => row.getD j default := by
        intro hb
        simp only [SqMat.transpose]
        rw [List.getElem_map, List.getElem_range]
      rw [htj (by simpa [SqMat.transpose, ← hn] using hjn)]
      rw [dotSum_eq (h1.2 _ (List.getElem_mem _)) (by simp [List.length_map, h2.1, hn])]
      congr 1
      apply List.map_congr_left
      intro k hk
      rw [List.mem_range] at hk
      have hk1 : i < m1.elements.length := by rw [h1.1]; exact hin
      have hk2 : k < m1.elements[i].length := by rw [h1.2 _ (List.getElem_mem _)]; exact hk
      have hk3 : k < m2.elements.length := by rw [h2.1, ← hn]; exact hk
      have hk4 : j < m2.elements[k].length := by rw [h2.2 _ (List.getElem_mem _), ← hn]; exact hjn
      rw [SqMat.entry, SqMat.entry, List.getD_eq_getElem _ _ hk1,
        List.getD_eq_getElem _ _ hk2, List.getD_eq_getElem _ _ hk3,
        List.getD_eq_getElem _ _ (by rw [List.length_map]; exact hk3), List.getElem_map,
        List.getD_eq_getElem _ _ hk4]

theorem getD_map_range {β : Type} (f : Nat → β) {n i : Nat} (hi : i < n) (d : β) :
    ((List.range n).map f).getD i d = f i := by
  rw [List.getD_eq_getElem _ _ (by simpa using hi), List.getElem_map, List.getElem_range]

theorem mulSpec_entry {m1 m2 : SqMat Int} {i j : Nat} (hi : i < m1.n) (hj : j < m1.n) :
    (mulSpec m1 m2).entry i j =
      ((List.range m1.n).map fun k => m1.entry i k * m2.entry k j).foldl (· + ·) 0 := by
  rw [mulSpec, SqMat.entry]
  simp only
  rw [getD_map_range _ hi, getD_map_range _ hj]

theorem evalSym_isSome_iff {m : SqMat Element} {val : Valu} (hwf : m.wf) :
    (evalSym m val).isSome ↔ allDefined m val := by
  have hiff : (evalRows val m.elements).isSome ↔ allDefined m val := by
    rw [evalRows_isSome]
    constructor
    · intro h r hr e he
      exact (evalRow_isSome val r).mp (h r hr) e he
    · intro h r hr
      exact (evalRow_isSome val r).mpr fun e he => h r hr e he
  constructor
  · intro h
    rcases hrows : evalRows val m.elements with _ | rows
    · rw [evalSym, hrows] at h
      simp at h
    · exact hiff.mp (by rw [hrows]; rfl)
  · intro h
    rcases hrows : evalRows val m.elements with _ | rows
    · exfalso
      have := hiff.mpr h
      rw [hrows] at this
      simp at this
    · rw [evalSym, hrows]
      simp only [Option.some_bind]
      rw [Option.isSome_iff_exists]
      obtain ⟨hlen, hidx⟩ := evalRows_some hrows
      have hshape : rows.length = m.n ∧ ∀ r ∈ rows, r.length = m.n := by
        refine ⟨by rw [hlen, hwf.1], ?_⟩
        intro r hr
        obtain ⟨i, hi, rfl⟩ := List.mem_iff_getElem.mp hr
        have hi2 : i < m.elements.length := by omega
        have := evalRow_some (hidx i hi2)
        rw [List.getD_eq_getElem _ _ hi] at this
        rw [this.1, List.getD_eq_getElem _ _ hi2]
        exact hwf.2 _ (List.getElem_mem _)
      obtain ⟨M, hM⟩ := Option.isSome_iff_exists.mp ((mkMat_isSome m.n rows).mpr hshape)
      exact ⟨M, hM⟩

theorem evalSym_some_wf {m : SqMat Element} {val : Valu} {M : SqMat Int}
    (h : evalSym m val = some M) : M.wf := by
  rw [evalSym] at h
  rcases hrows : evalRows val m.elements with _ | rows <;> rw [hrows] at h
  · simp at h
  · simp only [Option.some_bind] at h
    obtain ⟨rfl, hlen, hr⟩ := mkMat_eq_some h
    exact ⟨hlen, hr⟩

theorem evalSym_some_spec {m : SqMat Element} {val : Valu} {M : SqMat Int}
    (hwf : m.wf) (h : evalSym m val = some M) :
    M.n = m.n ∧ ∀ i j, i < m.n → j < m.n →
      evalCell val (m.entry i j) = some (M.entry i j) := by
  rw [evalSym] at h
  rcases hrows : evalRows val m.elements with _ | rows <;> rw [hrows] at h
  · simp at h
  · simp only [Option.some_bind] at h
    obtain ⟨rfl, _, _⟩ := mkMat_eq_some h
    obtain ⟨hlen, hidx⟩ := evalRows_some hrows
    refine ⟨rfl, ?_⟩
    intro i j hi hj
    have hi2 : i < m.elements.length := by rw [hwf.1]; exact hi
    have hrow := evalRow_some (hidx i hi2)
    have hrlen : (m.elements.getD i []).length = m.n := by
      rw [List.getD_eq_getElem _ _ hi2]
      exact hwf.2 _ (List.getElem_mem _)
    exact hrow.2 j (by rw [hrlen]; exact hj)

/- ------------------------------------------------------------------ -/
/- Claim theorems.                                                     -/
/- ------------------------------------------------------------------ -/

/-- Claim C1 (code bug, evaluated at the failing input): the claim says the
engine splits the 9 flattened indices of a 3×3 matrix into
`ceil(9 / block_size)` blocks and leaves every index holding the elementwise
sum.  With `worker_count = 2` the code computes `block_size = ceil(9/2) = 5`
but then `block_count = ceil(9 / 5)` over *integer* division `9 / 5 = 1`, so
only indices 0..4 are updated: `A += A` on `[[1,2,3][4,5,6][7,8,9]]` yields
`[[2,4,6][8,10,6][7,8,9]]`, not the elementwise sum the claim (and the
repo's own test at squarematrix.cpp:622) requires. -/
theorem C1_engine_coverage_bug :
    cdiv 9 2 = 5 ∧ (9 : Nat) / 5 = 1 ∧
    addM 2 exM3 exM3 = some ⟨3, [[2, 4, 6], [8, 10, 6], [7, 8, 9]]⟩ ∧
    addSpec exM3 exM3 = ⟨3, [[2, 4, 6], [8, 10, 12], [14, 16, 18]]⟩ ∧
    addM 2 exM3 exM3 ≠ some (addSpec exM3 exM3) := by decide

/-- Claim C6 (code bug, evaluated at the failing input): elementwise
addition/subtraction is *not* independent of the configured worker count:
with 1 worker the whole matrix is covered and the result is the elementwise
sum, while with 2 (or 8) workers the floored block count leaves trailing
indices unmodified, producing a different matrix for the same operands. -/
theorem C6_worker_count_dependence :
    addM 1 exM3 exM3 = some (addSpec exM3 exM3) ∧
    addM 2 exM3 exM3 ≠ addM 1 exM3 exM3 ∧
    subM 8 exM3 exM3 ≠ subM 1 exM3 exM3 := by decide

/-- Claim C2, counterexample: `"[[01]]"` is accepted by the integer parser
(stream extraction reads `01` as 1), but `toString` renders the parse result
as `"[[1]]"`, so `parse(T).toString() == T` fails character-for-character. -/
theorem C2_counterexample :
    (parseC "[[01]]").isSome ∧
    Option.map toStringC (parseC "[[01]]") ≠ some "[[01]]" := by decide

/-- Claim C2 (amended): round-trip holds for canonical texts — for every
well-formed nonempty matrix whose integer cells are in `int` range (and,
symbolically, whose variable names are alphabetic), parsing the `toString`
rendering returns the matrix itself; hence `parse(T).toString() == T` for
every `T` in the image of `toString`.  General accepted texts may contain
whitespace, `+` signs or leading zeros, which `toString` canonicalizes. -/
theorem C2_round_trip_canonical :
    (∀ m : SqMat Int, m.wf → 0 < m.n → intsInRange m →
      parseC (toStringC m) = some m) ∧
    (∀ m : SqMat Element, m.wf → 0 < m.n → cellsValid m →
      parseS (toStringS m) = some m) := by
  constructor
  · intro m hwf hn hr
    have H : ∀ (v : Int), (-(2 ^ 31) ≤ v ∧ v < 2 ^ 31) → ∀ r2, sepHead r2 →
        readCellC (intChars v ++ r2) = some (v, r2) :=
      fun v hv r2 hr2 => readCellC_render hv.1 hv.2 hr2
    have hmain := parseMatF_render H true m hwf hn hr
    show parseCL (matChars intChars m) = some m
    rw [parseCL, hmain]
    rfl
  · intro m hwf hn hr
    have H : ∀ (e : Element), e.valid → ∀ r2, sepHead r2 →
        readCellSym (elemChars e ++ r2) = some (e, r2) :=
      fun e hv r2 hr2 => readCellSym_render hv hr2
    have hmain := parseMatF_render H false m hwf hn hr
    show parseSL (matChars elemChars m) = some m
    rw [parseSL, hmain]
    rfl

/-- C2 witness at `[[1,2][3,4]]`. -/
theorem C2_round_trip_canonical_witness :
    (exM2.wf ∧ 0 < exM2.n ∧ intsInRange exM2) ∧ parseC (toStringC exM2) = some exM2 :=
  ⟨⟨by decide, by decide, by decide⟩,
    C2_round_trip_canonical.1 exM2 (by decide) (by decide) (by decide)⟩

/-- Claim C3: evaluating a concrete matrix under any binding is the
identity; evaluating a well-formed symbolic matrix succeeds exactly when
every variable cell is bound (otherwise `UndefinedVariableError`, with no
partial result), and on success the result has the same size, satisfies the
invariant, and holds each cell's per-cell evaluation. -/
theorem C3_evaluate :
    (∀ (m : SqMat Int) (val : Valu), evalConc m val = m) ∧
    (∀ (m : SqMat Element) (val : Valu), m.wf →
      (((evalSym m val).isSome ↔ allDefined m val) ∧
        ∀ M, evalSym m val = some M → M.n = m.n ∧ M.wf ∧
          ∀ i j, i < m.n → j < m.n →
            evalCell val (m.entry i j) = some (M.entry i j))) := by
  constructor
  · intro m val
    rfl
  · intro m val hwf
    refine ⟨evalSym_isSome_iff hwf, ?_⟩
    intro M hM
    obtain ⟨hn, hent⟩ := evalSym_some_spec hwf hM
    exact ⟨hn, evalSym_some_wf hM, hent⟩

/-- C3 witness: the repo's own scenario `[[1,b][3,h]]` under `{b↦2, h↦4}`,
plus the failing empty binding. -/
theorem C3_evaluate_witness :
    (exS2.wf ∧ allDefined exS2 exVal) ∧
    (evalSym exS2 exVal).isSome ∧ evalConc exM2 exVal = exM2 :=
  ⟨⟨by decide, by decide⟩,
    ((C3_evaluate.2 exS2 exVal (by decide)).1).mpr (by decide),
    C3_evaluate.1 exM2 exVal⟩

/-- Claim C4: matrix division is multiplication by the right operand's
transpose: for same-sized well-formed concrete matrices,
`M / N = M * transpose(N)` with standard row-times-column dot products, so
cell `(i,j)` of `M / N` is `Σₖ M[i][k] · N[j][k]` — in particular `M / M`
is `M * Mᵀ`, not the identity. -/
theorem C4_division_is_mul_transpose (m1 m2 : SqMat Int) (h1 : m1.wf) (h2 : m2.wf)
    (hn : m1.n = m2.n) :
    divM m1 m2 = some (mulSpec m1 m2.transpose) ∧
    ∀ i j, i < m1.n → j < m1.n →
      (mulSpec m1 m2.transpose).entry i j =
        ((List.range m1.n).map fun k => m1.entry i k * m2.entry j k).foldl (· + ·) 0 := by
  have ht : m1.n = m2.transpose.n := hn
  constructor
  · rw [divM, mulM, if_neg (by omega)]
    rw [mulCode_eq_mulSpec h1 (wf_transpose h2) ht]
  · intro i j hi hj
    rw [mulSpec_entry hi hj]
    congr 1
    apply List.map_congr_left
    intro k hk
    rw [List.mem_range] at hk
    rw [entry_transpose h2 (by omega) (by omega)]

/-- C4 witness: self-division of the repo's test matrix, whose expected
value `[[14,32,50][32,77,122][50,122,194]]` (squarematrix.cpp:586-587) is
not the identity matrix. -/
theorem C4_division_is_mul_transpose_witness :
    (exM3.wf ∧ exM3.n = exM3.n) ∧
    divM exM3 exM3 = some (mulSpec exM3 exM3.transpose) ∧
    SqMat.entry (mulSpec exM3 exM3.transpose) 0 1 =
      ((List.range exM3.n).map fun k => exM3.entry 0 k * exM3.entry 1 k).foldl (· + ·) 0 :=
  ⟨⟨by decide, rfl⟩,
    (C4_division_is_mul_transpose exM3 exM3 (by decide) (by decide) rfl).1,
    (C4_division_is_mul_transpose exM3 exM3 (by decide) (by decide) rfl).2 0 1
      (by decide) (by decide)⟩

/-- Claim C5, counterexample: on the 2×2 test matrix, `start = 3` and
`step = 3` both satisfy the claim's bounds (`≤ n² = 4`), yet `block(3,3)`
throws (`unrolled.at(i)` hits index 4) instead of returning the claimed
sub-sequence. -/
theorem C5_counterexample :
    3 ≤ exM2.n ^ 2 ∧ 3 ≤ exM2.n ^ 2 ∧ SqMat.block exM2 3 3 = none := by decide

/-- Claim C5 (amended): `block(start, step)` returns the sub-sequence
`[start, start+step)` of the row-major flattening whenever `start ≤ n²`,
`step ≤ n²` **and** `start + step ≤ n²` (the extra condition C10 records);
`block(start, 0)` is empty for `start ≤ n²`; `block` fails with
`OutOfRangeError` when `start` or `step` exceeds `n²`; `block(0, n²)` is the
full flattening and `block(k, 1)` the single element at flattened index
`k < n²`. -/
theorem C5_block_amended {α : Type} [Inhabited α] (m : SqMat α) (h : m.wf)
    (start step : Nat) :
    (start ≤ m.n ^ 2 → step ≤ m.n ^ 2 → start + step ≤ m.n ^ 2 →
      m.block start step = some ((m.elements.flatten.drop start).take step)) ∧
    (start ≤ m.n ^ 2 → m.block start 0 = some []) ∧
    (m.n ^ 2 < start ∨ m.n ^ 2 < step → m.block start step = none) ∧
    m.block 0 (m.n ^ 2) = some m.elements.flatten ∧
    (start < m.n ^ 2 → m.block start 1 = some [m.elements.flatten.getD start default]) := by
  have hlen : m.elements.flatten.length = m.n ^ 2 := by
    rw [wf_flatten_length h, pow_two]
  refine ⟨fun h1 h2 h3 => block_in_range h h1 h2 h3, ?_, ?_, ?_, ?_⟩
  · intro h1
    rw [SqMat.block]
    simp only
    rw [if_neg (by omega), if_neg (by omega), if_pos trivial]
  · intro h1
    rw [SqMat.block]
    simp only
    by_cases hs : start > m.n ^ 2
    · rw [if_pos hs]
    · rcases h1 with h1 | h1
      · omega
      · rw [if_neg hs, if_pos (by omega)]
  · by_cases hz : m.n ^ 2 = 0
    · have hflat : m.elements.flatten = [] := List.length_eq_zero.mp (by omega)
      rw [SqMat.block]
      simp only
      rw [if_neg (by omega), if_neg (by omega), if_pos hz, hflat]
    · rw [block_in_range h (by omega) (by omega) (by omega), List.drop_zero, ← hlen,
        List.take_length]
  · intro h1
    rw [block_in_range h (by omega) (by omega) (by omega)]
    have htake : ∀ (hb : start < m.elements.flatten.length),
        (m.elements.flatten.drop start).take 1 =
          [m.elements.flatten.getD start default] := by
      intro hb
      rw [List.drop_eq_getElem_cons hb, List.take_succ_cons, List.take_zero,
        List.getD_eq_getElem _ _ hb]
    rw [htake (by omega)]

/-- C5 witness on the 2×2 test matrix. -/
theorem C5_block_amended_witness :
    (exM2.wf ∧ 1 ≤ exM2.n ^ 2 ∧ 2 ≤ exM2.n ^ 2 ∧ 1 + 2 ≤ exM2.n ^ 2) ∧
    SqMat.block exM2 1 2 = some ((exM2.elements.flatten.drop 1).take 2) ∧
    SqMat.block exM2 0 (exM2.n ^ 2) = some exM2.elements.flatten :=
  ⟨⟨by decide, by decide, by decide, by decide⟩,
    (C5_block_amended exM2 (by decide) 1 2).1 (by decide) (by decide) (by decide),
    (C5_block_amended exM2 (by decide) 1 2).2.2.2.1⟩

/-- Claim C7: transposition is an involution on well-formed matrices
(concrete or symbolic — the statement is generic in the cell type), returns
a matrix of the same size with rows and columns swapped, and being a pure
function of the model it does not mutate its argument. -/
theorem C7_transpose_involution {α : Type} [Inhabited α] (m : SqMat α) (h : m.wf) :
    m.transpose.transpose = m ∧ m.transpose.n = m.n ∧
      ∀ i j, i < m.n → j < m.n → m.transpose.entry j i = m.entry i j :=
  ⟨transpose_transpose h, rfl, fun _ _ hi hj => entry_transpose h hj hi⟩

/-- C7 witness at `[[1,2][3,4]]`. -/
theorem C7_transpose_involution_witness :
    exM2.wf ∧ exM2.transpose.transpose = exM2 ∧ exM2.transpose.n = exM2.n ∧
      SqMat.entry exM2.transpose 1 0 = exM2.entry 0 1 :=
  ⟨by decide, (C7_transpose_involution exM2 (by decide)).1,
    (C7_transpose_involution exM2 (by decide)).2.1,
    (C7_transpose_involution exM2 (by decide)).2.2 0 1 (by decide) (by decide)⟩

/-- Claim C9: every one of the four operators (and their compound forms,
which share the same entry points) fails with `DimensionMismatchError` on
operands of different sizes; the check precedes any mutation, so the
left-hand matrix is unchanged — in the model the operation returns `none`
and produces no result matrix at all. -/
theorem C9_dimension_mismatch (w : Nat) (m1 m2 : SqMat Int) (h : m1.n ≠ m2.n) :
    addM w m1 m2 = none ∧ subM w m1 m2 = none ∧
    mulM m1 m2 = none ∧ divM m1 m2 = none := by
  refine ⟨?_, ?_, ?_, ?_⟩
  · rw [addM, if_pos h]
  · rw [subM, if_pos h]
  · rw [mulM, if_pos h]
  · rw [divM, mulM, if_pos (show m1.n ≠ m2.transpose.n from h)]

/-- C9 witness: 2×2 against 3×3, as the repo's tests do
(squarematrix.cpp:630-633). -/
theorem C9_dimension_mismatch_witness :
    exM2.n ≠ exM3.n ∧ addM 4 exM2 exM3 = none ∧ subM 4 exM2 exM3 = none ∧
      mulM exM2 exM3 = none ∧ divM exM2 exM3 = none :=
  ⟨by decide, C9_dimension_mismatch 4 exM2 exM3 (by decide)⟩

/-- Claim C10: `block(start, step)` with `step > 0`, `start ≤ n²` and
`step ≤ n²` but `start + step > n²` throws `OutOfRangeError` (from
`unrolled.at(i)`) rather than returning a clipped or padded sequence — a
failure condition beyond the two the spec states. -/
theorem C10_block_overrun {α : Type} (m : SqMat α) (h : m.wf) (start step : Nat)
    (h0 : 0 < step) (h1 : start ≤ m.n ^ 2) (h2 : step ≤ m.n ^ 2)
    (h3 : m.n ^ 2 < start + step) : m.block start step = none := by
  have hlen : m.elements.flatten.length = m.n ^ 2 := by
    rw [wf_flatten_length h, pow_two]
  rw [SqMat.block]
  simp only
  rw [if_neg (by omega), if_neg (by omega), if_neg (by omega), if_neg (by omega)]

/-- C10 witness: `block(3, 3)` on the 2×2 test matrix. -/
theorem C10_block_overrun_witness :
    (exM2.wf ∧ 0 < 3 ∧ 3 ≤ exM2.n ^ 2 ∧ 3 ≤ exM2.n ^ 2 ∧ exM2.n ^ 2 < 3 + 3) ∧
      SqMat.block exM2 3 3 = none :=
  ⟨⟨by decide, by decide, by decide, by decide, by decide⟩,
    C10_block_overrun exM2 (by decide) 3 3 (by decide) (by decide) (by decide) (by decide)⟩

/-- Claim C8: every matrix value is square.  The parsers reject the
non-square text `"[[1,2,3][4,5,6][7,8,9][10,11,12]]"` with `ParseError`; the
structural constructor accepts a grid exactly when it is `n` rows of `n`
cells; any successfully parsed matrix satisfies the invariant; and
transpose, the four arithmetic operators and evaluation all yield matrices
satisfying the invariant. -/
theorem C8_square_invariant :
    parseC nonSquareText = none ∧ parseS nonSquareText = none ∧
    (∀ (α : Type) (n : Nat) (els : List (List α)),
      (mkMat n els).isSome ↔ (els.length = n ∧ ∀ r ∈ els, r.length = n)) ∧
    (∀ (α : Type) (n : Nat) (els : List (List α)) (m : SqMat α),
      mkMat n els = some m → m.wf) ∧
    (∀ (s : List Char) (m : SqMat Int), parseCL s = some m → m.wf) ∧
    (∀ (s : List Char) (m : SqMat Element), parseSL s = some m → m.wf) ∧
    (∀ (α : Type) [Inhabited α] (m : SqMat α), m.wf → m.transpose.wf) ∧
    (∀ (w : Nat) (m1 m2 m3 : SqMat Int), m1.wf → m2.wf →
      addM w m1 m2 = some m3 → m3.wf) ∧
    (∀ (w : Nat) (m1 m2 m3 : SqMat Int), m1.wf → m2.wf →
      subM w m1 m2 = some m3 → m3.wf) ∧
    (∀ (m1 m2 m3 : SqMat Int), m1.wf → m2.wf → mulM m1 m2 = some m3 → m3.wf) ∧
    (∀ (m1 m2 m3 : SqMat Int), m1.wf → m2.wf → divM m1 m2 = some m3 → m3.wf) ∧
    (∀ (m : SqMat Int) (val : Valu), m.wf → (evalConc m val).wf) ∧
    (∀ (m : SqMat Element) (val : Valu) (M : SqMat Int),
      evalSym m val = some M → M.wf) := by
  refine ⟨by decide, by decide, fun α n els => mkMat_isSome n els, ?_, ?_, ?_, ?_,
    ?_, ?_, ?_, ?_, ?_, ?_⟩
  · intro α n els m h
    obtain ⟨rfl, hlen, hr⟩ := mkMat_eq_some h
    exact ⟨hlen, hr⟩
  · exact fun s m h => parseCL_wf h
  · exact fun s m h => parseSL_wf h
  · intro α _ m h
    exact wf_transpose h
  · intro w m1 m2 m3 h1 h2 h
    rw [addM] at h
    by_cases hn : m1.n ≠ m2.n
    · rw [if_pos hn] at h
      exact Option.noConfusion h
    · rw [if_neg hn] at h
      obtain rfl := (Option.some.inj h).symm
      exact wf_tOper h1 h2 (by omega) _
  · intro w m1 m2 m3 h1 h2 h
    rw [subM] at h
    by_cases hn : m1.n ≠ m2.n
    · rw [if_pos hn] at h
      exact Option.noConfusion h
    · rw [if_neg hn] at h
      obtain rfl := (Option.some.inj h).symm
      exact wf_tOper h1 h2 (by omega) _
  · intro m1 m2 m3 h1 h2 h
    rw [mulM] at h
    by_cases hn : m1.n ≠ m2.n
    · rw [if_pos hn] at h
      exact Option.noConfusion h
    · rw [if_neg hn] at h
      obtain rfl := (Option.some.inj h).symm
      exact wf_mulCode h1 h2 (by omega)
  · intro m1 m2 m3 h1 h2 h
    rw [divM, mulM] at h
    by_cases hn : m1.n ≠ m2.transpose.n
    · rw [if_pos hn] at h
      exact Option.noConfusion h
    · rw [if_neg hn] at h
      obtain rfl := (Option.some.inj h).symm
      exact wf_mulCode h1 (wf_transpose h2) (by omega)
  · exact fun m val h => h
  · exact fun m val M h => evalSym_some_wf h

/-- C8 witness: the structural constructor and addition at concrete inputs. -/
theorem C8_square_invariant_witness :
    (exM2.wf ∧ exM2.wf ∧ addM 4 exM2 exM2 = some ⟨2, [[2, 4], [6, 8]]⟩) ∧
      (SqMat.mk 2 [[2, 4], [6, 8]] : SqMat Int).wf :=
  ⟨⟨by decide, by decide, by decide⟩,
    C8_square_invariant.2.2.2.2.2.2.2.1 4 exM2 exM2 ⟨2, [[2, 4], [6, 8]]⟩
      (by decide) (by decide) (by decide)⟩
